import Mathlib

/-
Verification of the GF(p) field-arithmetic engine (galois/gfp.py).

The definitions below are a shallow embedding of the Python source:
* `EXP`, `logEntry`/`LOGtab`, `ZECH_LOG`, `EXPfull`, `build_luts` embed
  `GFp._build_luts` (gfp.py lines 41-76).  Field elements are int64 values,
  modelled as `Int`; `%` on nonnegative operands with a positive modulus
  agrees between Python and Lean's `Int.emod`.  The int64 dtype-capacity
  guard (line 44-45) is not modelled; all claims concern orders far below
  the int64 maximum.
* `add_calculate`, `subtract_calculate`, `multiply_calculate`,
  `divide_calculate`, `additive_inverse_calculate`,
  `multiplicative_inverse_calculate`, `power_calculate`, `log_calculate`,
  `poly_eval_calculate` embed the calculate-mode routines
  (gfp.py lines 136-226).  In calculate mode `ADD_JIT`/`MULTIPLY_JIT`/
  `MULT_INV_JIT` are bound to `add_calculate`/`multiply_calculate`/
  `multiplicative_inverse_calculate` (gfp.py lines 116-118), which is how
  they appear below.
* While loops are embedded as fuel-indexed structural recursions; the fuel
  is chosen so that it never runs out on the executions the source performs
  (each lemma shows the fuel suffices).
-/

/-- Embeds the anti-log table construction of `GFp._build_luts`
(gfp.py lines 51-59): `EXP[0] = 1`, and for `i ≥ 1`,
`EXP[i] = EXP[i-1] * alpha`, reduced by `% order` whenever the product
reaches `order`.  Each entry depends only on the previous one, so the
sequential array fill is a recursion on the index. -/
def EXP (q alpha : Int) : Nat → Int
  | 0 => 1
  | i + 1 =>
    let p := EXP q alpha i * alpha
    if q ≤ p then p % q else p

/-- Embeds the log-table fill of `GFp._build_luts` (gfp.py lines 52, 63-64):
`LOG` is zero-initialised (`LOG[0] = 0`), and the loop assigns
`LOG[EXP[i]] = i` for `i = 1, ..., n` in ascending order, so the final value
at position `b` is the largest `i ≤ n` with `EXP[i] = b` (checked here from
the top down), and `0` when no such index exists. -/
def logEntry (q alpha : Int) : Nat → Int → Nat
  | 0, _ => 0
  | n + 1, b => if EXP q alpha (n + 1) = b then n + 1 else logEntry q alpha n b

/-- The finished `LOG` table of `GFp._build_luts`: writes happen for indices
`i` in `[1, order-1)`, i.e. `i ≤ order - 2`. -/
def LOGtab (q alpha : Int) (b : Int) : Nat :=
  logEntry q alpha (q.toNat - 2) b

/-- Embeds the Zech-log table of `GFp._build_luts` (gfp.py lines 67-69):
`ZECH_LOG[i] = LOG[(1 + EXP[i]) % order]`. -/
def ZECH_LOG (q alpha : Int) (i : Nat) : Nat :=
  LOGtab q alpha ((1 + EXP q alpha i) % q)

/-- Embeds the doubled anti-log table (gfp.py line 76):
`EXP[order + k] = EXP[1 + k]`, so multiplication lookups avoid a modulo on
the table index.  Indices `t < order` read the first copy; indices
`t ≥ order` read `EXP[t - order + 1]`. -/
def EXPfull (q alpha : Int) (t : Nat) : Int :=
  if t < q.toNat then EXP q alpha t else EXP q alpha (t - q.toNat + 1)

/-- Embeds `GFp._build_luts` as a whole (gfp.py lines 41-76): the tables are
delivered only when the three post-condition assertions (lines 71-73) hold —
`EXP[order-1] == 1`, `EXP[0:order-1]` has `order-1` distinct values, and
`LOG[1:order]` has `order-1` distinct values; an assertion failure delivers
nothing. -/
def build_luts (q alpha : Int) : Option ((Nat → Int) × (Int → Nat) × (Nat → Nat)) :=
  if EXP q alpha (q.toNat - 1) = 1
      ∧ ((Finset.range (q.toNat - 1)).image (EXP q alpha)).card = q.toNat - 1
      ∧ ((Finset.Ico 1 q.toNat).image fun b : Nat => LOGtab q alpha (b : Int)).card = q.toNat - 1
  then some (EXPfull q alpha, LOGtab q alpha, ZECH_LOG q alpha)
  else none

/-- The primitive element generates the full multiplicative group of order
`order - 1`: its `(order-1)`-th power is `1` and no smaller positive power
is (spec §3, field-descriptor invariant). -/
def isGenerator (q alpha : Int) : Prop :=
  alpha ^ (q.toNat - 1) % q = 1 ∧ ∀ k, k < q.toNat - 1 → 0 < k → alpha ^ k % q ≠ 1

instance (q alpha : Int) : Decidable (isGenerator q alpha) := by
  unfold isGenerator; infer_instance

/-- Embeds `add_calculate` (gfp.py lines 136-137). -/
def add_calculate (q a b : Int) : Int := (a + b) % q

/-- Embeds `subtract_calculate` (gfp.py lines 140-141). -/
def subtract_calculate (q a b : Int) : Int := (a - b) % q

/-- Embeds `multiply_calculate` (gfp.py lines 144-145). -/
def multiply_calculate (q a b : Int) : Int := (a * b) % q

/-- Embeds `additive_inverse_calculate` (gfp.py lines 156-157). -/
def additive_inverse_calculate (q a : Int) : Int := (-a) % q

/-- Modelled from the spec: the module `galois/algorithm.py` providing
`extended_euclidean_algorithm` is not under src/ (gfp.py line 4 imports it).
Spec §4.1: "extended Euclidean algorithm (gcd + Bézout coefficients), used
for multiplicative inversion".  Fuel-indexed standard extended Euclidean
recursion; returns `(g, x, y)` with `r0 * x + r1 * y = g` and `g` the gcd. -/
def egcdAux : Nat → Int → Int → Int × Int × Int
  | 0, r0, _ => (r0, 1, 0)
  | fuel + 1, r0, r1 =>
    if r1 = 0 then (r0, 1, 0)
    else
      let t := egcdAux fuel r1 (r0 % r1)
      (t.1, t.2.2, t.2.1 - r0 / r1 * t.2.2)

/-- Modelled from the spec (§4.1): `extended_gcd(a, n) -> (inverse, gcd)`,
computing the Bézout coefficient of `a` modulo `n`; the source consumes
component `[0]` (the coefficient). -/
def extended_euclidean_algorithm (a n : Int) : Int × Int :=
  let t := egcdAux (n.natAbs + 1) a n
  (t.2.1, t.1)

/-- Embeds `multiplicative_inverse_calculate` (gfp.py lines 160-162):
`a_inv = extended_euclidean_algorithm(a, ORDER)[0]; return a_inv % ORDER`. -/
def multiplicative_inverse_calculate (q a : Int) : Int :=
  (extended_euclidean_algorithm a q).1 % q

/-- Embeds `divide_calculate` (gfp.py lines 148-153): `0` when either operand
is `0`, else `MULTIPLY_JIT(a, MULT_INV_JIT(b))`. -/
def divide_calculate (q a b : Int) : Int :=
  if a = 0 ∨ b = 0 then 0
  else multiply_calculate q a (multiplicative_inverse_calculate q b)

/-- Embeds the square-and-multiply while loop of `power_calculate`
(gfp.py lines 188-199): state `(result_s, result_m, power)`; while
`power > 1`, square `result_s` (halving `power`) when `power` is even, else
fold `result_s` into `result_m` (decrementing `power`); on exit return
`MULTIPLY_JIT(result_m, result_s)`.  The fuel bounds the iteration count;
`fuel = power` always suffices since `power` strictly decreases. -/
def powerLoop (q : Int) : Nat → Int → Int → Nat → Int
  | 0, s, m, _ => multiply_calculate q m s
  | fuel + 1, s, m, p =>
    if p ≤ 1 then multiply_calculate q m s
    else if p % 2 = 0 then powerLoop q fuel (multiply_calculate q s s) m (p / 2)
    else powerLoop q fuel s (multiply_calculate q m s) (p - 1)

/-- Embeds `power_calculate` (gfp.py lines 169-201): `1` when the exponent is
`0`; a negative exponent first inverts the base (`MULT_INV_JIT`) and takes
the absolute value; then the square-and-multiply loop runs. -/
def power_calculate (q a power : Int) : Int :=
  if power = 0 then 1
  else
    let a1 := if power < 0 then multiplicative_inverse_calculate q a else a
    let p := power.natAbs
    powerLoop q p a1 1 p

/-- Embeds the naive search loop of `log_calculate` (gfp.py lines 213-219):
`result = 1; for i in range(0, ORDER-1): if result == beta: break;
result = MULTIPLY_JIT(result, ALPHA); return i`.  The fuel is the number of
loop iterations remaining; when the final iteration neither matches nor has
successors, Python's loop variable retains its last value, so the index is
returned as-is. -/
def logSearch (q alpha beta : Int) : Int → Nat → Nat → Nat
  | _, i, 0 => i
  | result, i, fuel + 1 =>
    if result = beta then i
    else if fuel = 0 then i
    else logSearch q alpha beta (multiply_calculate q result alpha) (i + 1) fuel

/-- Embeds `log_calculate` (gfp.py lines 204-219); the loop runs for
`ORDER - 1` iterations. -/
def log_calculate (q alpha beta : Int) : Int :=
  (logSearch q alpha beta 1 0 (q - 1).toNat : Nat)

/-- Embeds the per-element Horner loop of `poly_eval_calculate`
(gfp.py lines 222-226): `results[i] = coeffs[0]`, then for each later
coefficient `c`, `results[i] = ADD_JIT(c, MULTIPLY_JIT(results[i], x))`. -/
def poly_eval_elem (q : Int) (coeffs : List Int) (x : Int) : Int :=
  match coeffs with
  | [] => 0
  | c0 :: rest => rest.foldl (fun r c => add_calculate q c (multiply_calculate q r x)) c0

/-- Embeds `poly_eval_calculate` (gfp.py lines 222-226): the guvectorized
kernel evaluates every element of `values` independently. -/
def poly_eval_calculate (q : Int) (coeffs values : List Int) : List Int :=
  values.map (poly_eval_elem q coeffs)

/-- Spec-side reference value: the exact integer Horner value of the
polynomial `c0*x^n + c1*x^(n-1) + ... + cn` at `x` (no reduction). -/
def polyValInt (coeffs : List Int) (x : Int) : Int :=
  coeffs.foldl (fun acc c => acc * x + c) 0

/-- Modelled from the spec: the lookup-mode multiplication ufunc lives in
`galois/gf.py` (`_compile_lookup_ufuncs`, wired at gfp.py line 113), which is
not under src/.  Spec §4.3: "multiply(a,b) = EXP[LOG[a] + LOG[b]] with the
0-operand special-cased to 0", reading the tables built by `_build_luts`. -/
def multiply_lookup (q alpha : Int) (a b : Int) : Int :=
  if a = 0 ∨ b = 0 then 0
  else EXPfull q alpha (LOGtab q alpha a + LOGtab q alpha b)

theorem int_emod_emod (q x : Int) : x % q % q = x % q :=
  Int.emod_emod_of_dvd x dvd_rfl

theorem mul_emod_right_lift (q x y : Int) : x * (y % q) % q = x * y % q := by
  rw [Int.mul_emod, int_emod_emod, ← Int.mul_emod]

theorem mul_emod_left_lift (q x y : Int) : x % q * y % q = x * y % q := by
  rw [Int.mul_emod, int_emod_emod, ← Int.mul_emod]

theorem add_emod_right_lift (q x y : Int) : (x + y % q) % q = (x + y) % q := by
  rw [Int.add_emod, int_emod_emod, ← Int.add_emod]

theorem add_emod_left_lift (q x y : Int) : (x % q + y) % q = (x + y) % q := by
  rw [Int.add_emod, int_emod_emod, ← Int.add_emod]

theorem pow_emod_lift (q x : Int) (k : Nat) : (x % q) ^ k % q = x ^ k % q := by
  have h : Int.ModEq q (x % q) x := int_emod_emod q x
  exact Int.ModEq.pow k h

theorem one_emod_eq_one {q : Int} (hq : 1 < q) : (1 : Int) % q = 1 :=
  Int.emod_eq_of_lt (by omega) hq

theorem EXP_spec {q alpha : Int} (hq : 1 < q) (ha : 0 ≤ alpha) :
    ∀ i, EXP q alpha i = alpha ^ i % q := by
  intro i
  induction i with
  | zero => simp [EXP, one_emod_eq_one hq]
  | succ i ih =>
    show (if q ≤ EXP q alpha i * alpha then EXP q alpha i * alpha % q
          else EXP q alpha i * alpha) = alpha ^ (i + 1) % q
    rw [ih, pow_succ]
    by_cases h : q ≤ alpha ^ i % q * alpha
    · rw [if_pos h, mul_emod_left_lift]
    · rw [if_neg h]
      have h0 : 0 ≤ alpha ^ i % q := Int.emod_nonneg _ (by omega)
      have h1 : 0 ≤ alpha ^ i % q * alpha := mul_nonneg h0 ha
      rw [← mul_emod_left_lift]
      exact (Int.emod_eq_of_lt h1 (by omega)).symm

theorem EXP_bounds {q alpha : Int} (hq : 1 < q) (ha : 0 ≤ alpha) (i : Nat) :
    0 ≤ EXP q alpha i ∧ EXP q alpha i < q := by
  rw [EXP_spec hq ha]
  exact ⟨Int.emod_nonneg _ (by omega), Int.emod_lt_of_pos _ (by omega)⟩

theorem gen_pow_ne_zero {q alpha : Int} (hq : 1 < q) (hg : isGenerator q alpha)
    {i : Nat} (hi : i ≤ q.toNat - 1) : alpha ^ i % q ≠ 0 := by
  intro h0
  have hd : q ∣ alpha ^ (q.toNat - 1) :=
    (Int.dvd_of_emod_eq_zero h0).trans (pow_dvd_pow alpha hi)
  have hz : alpha ^ (q.toNat - 1) % q = 0 := Int.emod_eq_zero_of_dvd hd
  rw [hg.1] at hz
  omega

theorem gen_inj_le {q alpha : Int} (hq : 1 < q) (hg : isGenerator q alpha)
    {i j : Nat} (hi : i < q.toNat - 1) (hj : j < q.toNat - 1) (hij : i ≤ j)
    (h : alpha ^ i % q = alpha ^ j % q) : i = j := by
  have key : alpha ^ (j - i) % q = 1 := by
    have e1 : j - i + (q.toNat - 1) = q.toNat - 1 - i + j := by omega
    have e2 : q.toNat - 1 - i + i = q.toNat - 1 := by omega
    calc alpha ^ (j - i) % q
        = alpha ^ (j - i) * (alpha ^ (q.toNat - 1) % q) % q := by
          rw [hg.1, mul_one]
      _ = alpha ^ (q.toNat - 1 - i) * alpha ^ j % q := by
          rw [mul_emod_right_lift, ← pow_add, e1, pow_add]
      _ = alpha ^ (q.toNat - 1 - i) * alpha ^ i % q := by
          rw [← mul_emod_right_lift, ← h, mul_emod_right_lift]
      _ = 1 := by rw [← pow_add, e2, hg.1]
  by_cases hd : j - i = 0
  · omega
  · exact absurd key (hg.2 (j - i) (by omega) (by omega))

theorem gen_inj {q alpha : Int} (hq : 1 < q) (hg : isGenerator q alpha)
    {i j : Nat} (hi : i < q.toNat - 1) (hj : j < q.toNat - 1)
    (h : alpha ^ i % q = alpha ^ j % q) : i = j := by
  rcases le_total i j with hij | hij
  · exact gen_inj_le hq hg hi hj hij h
  · exact (gen_inj_le hq hg hj hi hij h.symm).symm

theorem gen_surj {q alpha : Int} (hq : 1 < q) (hg : isGenerator q alpha)
    {b : Int} (hb1 : 1 ≤ b) (hb2 : b < q) :
    ∃ i, i < q.toNat - 1 ∧ alpha ^ i % q = b := by
  have hinj : Set.InjOn (fun i : Nat => alpha ^ i % q) ↑(Finset.range (q.toNat - 1)) := by
    intro i hi j hj h
    simp only [Finset.coe_range, Set.mem_Iio] at hi hj
    exact gen_inj hq hg hi hj h
  have hcard : ((Finset.range (q.toNat - 1)).image fun i : Nat => alpha ^ i % q).card
      = q.toNat - 1 := by
    rw [Finset.card_image_of_injOn hinj, Finset.card_range]
  have hsub : ((Finset.range (q.toNat - 1)).image fun i : Nat => alpha ^ i % q)
      ⊆ Finset.Icc 1 (q - 1) := by
    intro x hx
    simp only [Finset.mem_image, Finset.mem_range] at hx
    obtain ⟨i, hi, rfl⟩ := hx
    have h0 : alpha ^ i % q ≠ 0 := gen_pow_ne_zero hq hg (by omega)
    have h1 : 0 ≤ alpha ^ i % q := Int.emod_nonneg _ (by omega)
    have h2 : alpha ^ i % q < q := Int.emod_lt_of_pos _ (by omega)
    exact Finset.mem_Icc.mpr ⟨by omega, by omega⟩
  have hicc : (Finset.Icc (1 : Int) (q - 1)).card = q.toNat - 1 := by
    rw [Int.card_Icc]
    omega
  have heq : ((Finset.range (q.toNat - 1)).image fun i : Nat => alpha ^ i % q)
      = Finset.Icc 1 (q - 1) :=
    Finset.eq_of_subset_of_card_le hsub (by omega)
  have hbmem : b ∈ Finset.Icc (1 : Int) (q - 1) := Finset.mem_Icc.mpr ⟨hb1, by omega⟩
  rw [← heq] at hbmem
  simp only [Finset.mem_image, Finset.mem_range] at hbmem
  exact hbmem

theorem logEntry_le (q alpha b : Int) : ∀ n, logEntry q alpha n b ≤ n := by
  intro n
  induction n with
  | zero => simp [logEntry]
  | succ n ih =>
    show (if EXP q alpha (n + 1) = b then n + 1 else logEntry q alpha n b) ≤ n + 1
    by_cases h : EXP q alpha (n + 1) = b
    · rw [if_pos h]
    · rw [if_neg h]; omega

theorem logEntry_exp {q alpha : Int} (hq : 1 < q) (ha : 0 ≤ alpha)
    (hg : isGenerator q alpha) :
    ∀ n, n ≤ q.toNat - 2 → ∀ i, i ≤ n → logEntry q alpha n (EXP q alpha i) = i := by
  intro n
  induction n with
  | zero =>
    intro _ i hi
    have : i = 0 := by omega
    subst this
    simp [logEntry]
  | succ n ih =>
    intro hn i hi
    show (if EXP q alpha (n + 1) = EXP q alpha i then n + 1
          else logEntry q alpha n (EXP q alpha i)) = i
    by_cases h : EXP q alpha (n + 1) = EXP q alpha i
    · rw [if_pos h]
      rw [EXP_spec hq ha, EXP_spec hq ha] at h
      exact gen_inj hq hg (by omega) (by omega) h
    · rw [if_neg h]
      have hne : i ≠ n + 1 := fun he => h (by rw [he])
      exact ih (by omega) i (by omega)

theorem LOG_exp {q alpha : Int} (hq : 1 < q) (ha : 0 ≤ alpha)
    (hg : isGenerator q alpha) {i : Nat} (hi : i ≤ q.toNat - 2) :
    LOGtab q alpha (EXP q alpha i) = i :=
  logEntry_exp hq ha hg (q.toNat - 2) le_rfl i hi

theorem EXP_LOG {q alpha : Int} (hq : 1 < q) (ha : 0 ≤ alpha)
    (hg : isGenerator q alpha) {b : Int} (hb1 : 1 ≤ b) (hb2 : b < q) :
    LOGtab q alpha b ≤ q.toNat - 2 ∧ EXP q alpha (LOGtab q alpha b) = b := by
  obtain ⟨i, hi, hfi⟩ := gen_surj hq hg hb1 hb2
  have hEi : EXP q alpha i = b := by rw [EXP_spec hq ha]; exact hfi
  have hL : LOGtab q alpha b = i := by rw [← hEi]; exact LOG_exp hq ha hg (by omega)
  rw [hL, hEi]
  exact ⟨by omega, rfl⟩

theorem EXPfull_spec {q alpha : Int} (hq : 1 < q) (ha : 0 ≤ alpha)
    (hg : isGenerator q alpha) (t : Nat) : EXPfull q alpha t = alpha ^ t % q := by
  unfold EXPfull
  by_cases h : t < q.toNat
  · rw [if_pos h, EXP_spec hq ha]
  · rw [if_neg h, EXP_spec hq ha]
    have hsplit : t - q.toNat + 1 + (q.toNat - 1) = t := by omega
    calc alpha ^ (t - q.toNat + 1) % q
        = alpha ^ (t - q.toNat + 1) * (alpha ^ (q.toNat - 1) % q) % q := by
          rw [hg.1, mul_one]
      _ = alpha ^ t % q := by rw [mul_emod_right_lift, ← pow_add, hsplit]

theorem powerLoop_spec {q : Int} :
    ∀ fuel p s m, 1 ≤ p → p ≤ fuel → powerLoop q fuel s m p = m * s ^ p % q := by
  intro fuel
  induction fuel with
  | zero => intro p s m h1 h2; omega
  | succ fuel ih =>
    intro p s m h1 h2
    show (if p ≤ 1 then multiply_calculate q m s
          else if p % 2 = 0 then powerLoop q fuel (multiply_calculate q s s) m (p / 2)
          else powerLoop q fuel s (multiply_calculate q m s) (p - 1)) = m * s ^ p % q
    by_cases hp1 : p ≤ 1
    · have : p = 1 := by omega
      subst this
      rw [if_pos le_rfl]
      show m * s % q = m * s ^ 1 % q
      rw [pow_one]
    · rw [if_neg hp1]
      by_cases hev : p % 2 = 0
      · rw [if_pos hev, ih (p / 2) _ m (by omega) (by omega)]
        calc m * (s * s % q) ^ (p / 2) % q
            = m * ((s * s % q) ^ (p / 2) % q) % q := (mul_emod_right_lift q m _).symm
          _ = m * ((s * s) ^ (p / 2) % q) % q := by rw [pow_emod_lift]
          _ = m * (s * s) ^ (p / 2) % q := mul_emod_right_lift q m _
          _ = m * s ^ p % q := by
              have hp2 : (s * s) ^ (p / 2) = s ^ p := by
                rw [← pow_two, ← pow_mul]
                congr 1
                omega
              rw [hp2]
      · rw [if_neg hev, ih (p - 1) s _ (by omega) (by omega)]
        show m * s % q * s ^ (p - 1) % q = m * s ^ p % q
        rw [mul_emod_left_lift, mul_assoc, ← pow_succ']
        have : p - 1 + 1 = p := by omega
        rw [this]

theorem egcdAux_spec :
    ∀ fuel r0 r1, 0 ≤ r0 → 0 ≤ r1 → r1.toNat < fuel →
      r0 * (egcdAux fuel r0 r1).2.1 + r1 * (egcdAux fuel r0 r1).2.2 = (egcdAux fuel r0 r1).1
      ∧ (egcdAux fuel r0 r1).1 ∣ r0 ∧ (egcdAux fuel r0 r1).1 ∣ r1
      ∧ 0 ≤ (egcdAux fuel r0 r1).1 := by
  intro fuel
  induction fuel with
  | zero => intro r0 r1 _ _ h; omega
  | succ fuel ih =>
    intro r0 r1 h0 h1 hfuel
    by_cases hz : r1 = 0
    · subst hz
      show r0 * (r0, 1, 0).2.1 + 0 * (r0, 1, 0).2.2 = (r0, 1, 0).1
        ∧ (r0, 1, 0).1 ∣ r0 ∧ (r0, (1 : Int), (0 : Int)).1 ∣ 0 ∧ 0 ≤ (r0, 1, 0).1
      refine ⟨by ring, dvd_rfl, dvd_zero r0, h0⟩
    · have hpos : 0 < r1 := by omega
      have hm0 : 0 ≤ r0 % r1 := Int.emod_nonneg r0 (by omega)
      have hmlt : r0 % r1 < r1 := Int.emod_lt_of_pos r0 hpos
      have hrec := ih r1 (r0 % r1) h1 hm0 (by omega)
      have heq : egcdAux (fuel + 1) r0 r1
          = ((egcdAux fuel r1 (r0 % r1)).1, (egcdAux fuel r1 (r0 % r1)).2.2,
             (egcdAux fuel r1 (r0 % r1)).2.1 - r0 / r1 * (egcdAux fuel r1 (r0 % r1)).2.2) := by
        show (if r1 = 0 then (r0, 1, 0)
              else ((egcdAux fuel r1 (r0 % r1)).1, (egcdAux fuel r1 (r0 % r1)).2.2,
                (egcdAux fuel r1 (r0 % r1)).2.1 - r0 / r1 * (egcdAux fuel r1 (r0 % r1)).2.2)) = _
        rw [if_neg hz]
      rw [heq]
      obtain ⟨hbez, hd1, hd2, hg0⟩ := hrec
      have hmod : r0 % r1 = r0 - r1 * (r0 / r1) := Int.emod_def r0 r1
      constructor
      · calc r0 * (egcdAux fuel r1 (r0 % r1)).2.2
            + r1 * ((egcdAux fuel r1 (r0 % r1)).2.1 - r0 / r1 * (egcdAux fuel r1 (r0 % r1)).2.2)
            = r1 * (egcdAux fuel r1 (r0 % r1)).2.1
              + (r0 - r1 * (r0 / r1)) * (egcdAux fuel r1 (r0 % r1)).2.2 := by ring
          _ = r1 * (egcdAux fuel r1 (r0 % r1)).2.1
              + r0 % r1 * (egcdAux fuel r1 (r0 % r1)).2.2 := by rw [← hmod]
          _ = (egcdAux fuel r1 (r0 % r1)).1 := hbez
      · refine ⟨?_, hd1, hg0⟩
        have hsum : (egcdAux fuel r1 (r0 % r1)).1 ∣ r1 * (r0 / r1) + r0 % r1 :=
          dvd_add (hd1.mul_right (r0 / r1)) hd2
        rwa [Int.ediv_add_emod r0 r1] at hsum

theorem logSearch_found {q alpha beta : Int} (hq : 1 < q) :
    ∀ fuel i g, i ≤ g → g < i + fuel → alpha ^ g % q = beta →
      (∀ j, i ≤ j → j < g → alpha ^ j % q ≠ beta) →
      logSearch q alpha beta (alpha ^ i % q) i fuel = g := by
  intro fuel
  induction fuel with
  | zero => intro i g h1 h2; omega
  | succ fuel ih =>
    intro i g h1 h2 hmatch hmin
    show (if alpha ^ i % q = beta then i
          else if fuel = 0 then i
          else logSearch q alpha beta (multiply_calculate q (alpha ^ i % q) alpha) (i + 1) fuel) = g
    by_cases hhit : alpha ^ i % q = beta
    · rw [if_pos hhit]
      by_contra hne
      exact hmin i le_rfl (by omega) hhit
    · rw [if_neg hhit]
      have hgi : i < g := by
        rcases Nat.lt_or_ge i g with h | h
        · exact h
        · have : i = g := by omega
          subst this
          exact absurd hmatch hhit
      have hfz : fuel ≠ 0 := by omega
      rw [if_neg hfz]
      have hstep : multiply_calculate q (alpha ^ i % q) alpha = alpha ^ (i + 1) % q := by
        show alpha ^ i % q * alpha % q = alpha ^ (i + 1) % q
        rw [mul_emod_left_lift, ← pow_succ]
      rw [hstep]
      exact ih (i + 1) g (by omega) (by omega) hmatch (fun j hj1 hj2 => hmin j (by omega) hj2)

theorem logSearch_nomatch {q alpha beta : Int} :
    ∀ fuel i, 1 ≤ fuel → (∀ j, i ≤ j → j < i + fuel → alpha ^ j % q ≠ beta) →
      logSearch q alpha beta (alpha ^ i % q) i fuel = i + fuel - 1 := by
  intro fuel
  induction fuel with
  | zero => intro i h1; omega
  | succ fuel ih =>
    intro i _ hmin
    show (if alpha ^ i % q = beta then i
          else if fuel = 0 then i
          else logSearch q alpha beta (multiply_calculate q (alpha ^ i % q) alpha) (i + 1) fuel) = _
    rw [if_neg (hmin i le_rfl (by omega))]
    by_cases hfz : fuel = 0
    · subst hfz
      rw [if_pos rfl]
      omega
    · rw [if_neg hfz]
      have hstep : multiply_calculate q (alpha ^ i % q) alpha = alpha ^ (i + 1) % q := by
        show alpha ^ i % q * alpha % q = alpha ^ (i + 1) % q
        rw [mul_emod_left_lift, ← pow_succ]
      rw [hstep, ih (i + 1) (by omega) (fun j hj1 hj2 => hmin j (by omega) (by omega))]
      omega

theorem horner_fold {q x : Int} (hq : 1 < q) :
    ∀ (rest : List Int) (a b : Int), 0 ≤ a → a < q → a % q = b % q →
      rest.foldl (fun r c => add_calculate q c (multiply_calculate q r x)) a
        = rest.foldl (fun acc c => acc * x + c) b % q := by
  intro rest
  induction rest with
  | nil =>
    intro a b h0 h1 hab
    show a = b % q
    rw [← hab]
    exact (Int.emod_eq_of_lt h0 h1).symm
  | cons c rest ih =>
    intro a b h0 h1 hab
    show rest.foldl (fun r c => add_calculate q c (multiply_calculate q r x))
        (add_calculate q c (multiply_calculate q a x))
      = rest.foldl (fun acc c => acc * x + c) (b * x + c) % q
    have hx : a * x % q = b * x % q := by
      rw [Int.mul_emod, hab, ← Int.mul_emod]
    have hacc : add_calculate q c (multiply_calculate q a x) % q = (b * x + c) % q := by
      show (c + a * x % q) % q % q = (b * x + c) % q
      rw [int_emod_emod, add_emod_right_lift, add_comm c (a * x), Int.add_emod, hx,
        ← Int.add_emod]
    refine ih _ _ ?_ ?_ hacc
    · exact Int.emod_nonneg _ (by omega)
    · exact Int.emod_lt_of_pos _ (by omega)

/-- C5: in calculate mode, for field elements `a`, `b`, `c` in `[0, order)`,
`add(a,b) = (a+b) mod order`, `subtract(a,b) = (a-b) mod order`,
`multiply(a,b) = (a*b) mod order`, `negate(a) = (-a) mod order`; `add` and
`multiply` are commutative and associative and `multiply` distributes over
`add`. -/
theorem C5_calculate_arithmetic (q a b c : Int) (hq : 1 < q)
    (ha : 0 ≤ a ∧ a < q) (hb : 0 ≤ b ∧ b < q) (hc : 0 ≤ c ∧ c < q) :
    add_calculate q a b = (a + b) % q
    ∧ subtract_calculate q a b = (a - b) % q
    ∧ multiply_calculate q a b = (a * b) % q
    ∧ additive_inverse_calculate q a = (-a) % q
    ∧ add_calculate q a b = add_calculate q b a
    ∧ add_calculate q (add_calculate q a b) c = add_calculate q a (add_calculate q b c)
    ∧ multiply_calculate q a b = multiply_calculate q b a
    ∧ multiply_calculate q (multiply_calculate q a b) c
      = multiply_calculate q a (multiply_calculate q b c)
    ∧ multiply_calculate q a (add_calculate q b c)
      = add_calculate q (multiply_calculate q a b) (multiply_calculate q a c) := by
  refine ⟨rfl, rfl, rfl, rfl, ?_, ?_, ?_, ?_, ?_⟩
  · show (a + b) % q = (b + a) % q
    rw [add_comm]
  · show ((a + b) % q + c) % q = (a + (b + c) % q) % q
    rw [add_emod_left_lift, add_emod_right_lift, add_assoc]
  · show a * b % q = b * a % q
    rw [mul_comm]
  · show a * b % q * c % q = a * (b * c % q) % q
    rw [mul_emod_left_lift, mul_emod_right_lift, mul_assoc]
  · show a * ((b + c) % q) % q = (a * b % q + a * c % q) % q
    rw [mul_emod_right_lift, mul_add, add_emod_left_lift, add_emod_right_lift]

theorem C5_witness :
    add_calculate 7 3 5 = (3 + 5) % 7
    ∧ subtract_calculate 7 3 5 = (3 - 5) % 7
    ∧ multiply_calculate 7 3 5 = 3 * 5 % 7
    ∧ additive_inverse_calculate 7 3 = (-3) % 7
    ∧ add_calculate 7 3 5 = add_calculate 7 5 3
    ∧ add_calculate 7 (add_calculate 7 3 5) 6 = add_calculate 7 3 (add_calculate 7 5 6)
    ∧ multiply_calculate 7 3 5 = multiply_calculate 7 5 3
    ∧ multiply_calculate 7 (multiply_calculate 7 3 5) 6
      = multiply_calculate 7 3 (multiply_calculate 7 5 6)
    ∧ multiply_calculate 7 3 (add_calculate 7 5 6)
      = add_calculate 7 (multiply_calculate 7 3 5) (multiply_calculate 7 3 6) :=
  C5_calculate_arithmetic 7 3 5 6 (by decide) (by decide) (by decide) (by decide)

/-- C2: after `_build_luts` runs for a prime field of order `order` with a
generating primitive element `alpha` in `[1, order)`, the exponent table
satisfies `EXP[i] = alpha^i mod order` for every index `i` in `[0, order)`
(so `EXP[0] = 1` and `EXP[order-1] = 1`), and the table is built by the
iteration `EXP[i] = (EXP[i-1] * alpha) mod order`. -/
theorem C2_exp_table (q alpha : Int) (i : Nat) (hq : 1 < q)
    (ha1 : 1 ≤ alpha) (ha2 : alpha < q) (hg : isGenerator q alpha)
    (hi : i < q.toNat) :
    EXP q alpha i = alpha ^ i % q
    ∧ EXP q alpha 0 = 1
    ∧ EXP q alpha (q.toNat - 1) = 1
    ∧ (1 ≤ i → EXP q alpha i = EXP q alpha (i - 1) * alpha % q) := by
  refine ⟨EXP_spec hq (by omega) i, rfl, ?_, ?_⟩
  · rw [EXP_spec hq (by omega)]
    exact hg.1
  · intro h1
    obtain ⟨k, rfl⟩ : ∃ k, i = k + 1 := ⟨i - 1, by omega⟩
    show (if q ≤ EXP q alpha k * alpha then EXP q alpha k * alpha % q
          else EXP q alpha k * alpha) = EXP q alpha (k + 1 - 1) * alpha % q
    have hred : k + 1 - 1 = k := rfl
    rw [hred]
    by_cases hcase : q ≤ EXP q alpha k * alpha
    · rw [if_pos hcase]
    · rw [if_neg hcase]
      have hbd := @EXP_bounds q alpha hq (show (0 : Int) ≤ alpha by omega) k
      have hnn : 0 ≤ EXP q alpha k * alpha :=
        mul_nonneg hbd.1 (show (0 : Int) ≤ alpha by omega)
      have hlt : EXP q alpha k * alpha < q := by omega
      exact (Int.emod_eq_of_lt hnn hlt).symm

theorem C2_witness :
    EXP 7 3 5 = 3 ^ 5 % 7
    ∧ EXP 7 3 0 = 1
    ∧ EXP 7 3 ((7 : Int).toNat - 1) = 1
    ∧ (1 ≤ 5 → EXP 7 3 5 = EXP 7 3 (5 - 1) * 3 % 7) :=
  C2_exp_table 7 3 5 (by decide) (by decide) (by decide) (by decide) (by decide)

/-- C3: after `_build_luts` runs for a prime field with a generating
primitive element, `LOG` inverts `EXP` on the exponent range `[0, order-1)`:
`LOG[EXP[i]] = i` for every `i` in that range, including `i = 0`, where
`EXP[0] = 1` and `LOG[1] = 0`. -/
theorem C3_log_inverse (q alpha : Int) (i : Nat) (hq : 1 < q)
    (ha1 : 1 ≤ alpha) (ha2 : alpha < q) (hg : isGenerator q alpha)
    (hi : i < q.toNat - 1) :
    LOGtab q alpha (EXP q alpha i) = i
    ∧ EXP q alpha 0 = 1
    ∧ LOGtab q alpha 1 = 0 := by
  refine ⟨LOG_exp hq (by omega) hg (by omega), rfl, ?_⟩
  have h0 : EXP q alpha 0 = 1 := rfl
  rw [← h0]
  exact LOG_exp hq (by omega) hg (by omega)

theorem C3_witness :
    LOGtab 7 3 (EXP 7 3 4) = 4 ∧ EXP 7 3 0 = 1 ∧ LOGtab 7 3 1 = 0 :=
  C3_log_inverse 7 3 4 (by decide) (by decide) (by decide) (by decide) (by decide)

/-- C4: for a field descriptor with `1 ≤ primitive_element < order`,
`_build_luts` completes without an assertion failure (delivering the tables)
iff the primitive element generates the full multiplicative group of order
`order - 1`; otherwise one of the three post-condition assertions fails and
no tables are delivered. -/
theorem C4_build_luts_iff (q alpha : Int) (hq : 1 < q)
    (ha1 : 1 ≤ alpha) (ha2 : alpha < q) :
    (build_luts q alpha).isSome = true ↔ isGenerator q alpha := by
  have ha0 : (0 : Int) ≤ alpha := by omega
  constructor
  · intro hsome
    unfold build_luts at hsome
    by_cases hcond : EXP q alpha (q.toNat - 1) = 1
        ∧ ((Finset.range (q.toNat - 1)).image (EXP q alpha)).card = q.toNat - 1
        ∧ ((Finset.Ico 1 q.toNat).image fun b : Nat => LOGtab q alpha (b : Int)).card
          = q.toNat - 1
    · obtain ⟨A1, A2, A3⟩ := hcond
      constructor
      · rw [← EXP_spec hq ha0]
        exact A1
      · intro k hk hk0 hpow
        have hEk : EXP q alpha k = EXP q alpha 0 := by
          rw [EXP_spec hq ha0, EXP_spec hq ha0, pow_zero, one_emod_eq_one hq, hpow]
        have hinj : Set.InjOn (EXP q alpha) ↑(Finset.range (q.toNat - 1)) :=
          Finset.card_image_iff.mp (by rw [Finset.card_range]; exact A2)
        have hk0' : k = 0 :=
          hinj (by simp only [Finset.coe_range, Set.mem_Iio]; omega)
            (by simp only [Finset.coe_range, Set.mem_Iio]; omega) hEk
        omega
    · rw [if_neg hcond] at hsome
      simp at hsome
  · intro hg
    have A1 : EXP q alpha (q.toNat - 1) = 1 := by
      rw [EXP_spec hq ha0]
      exact hg.1
    have hinjE : Set.InjOn (EXP q alpha) ↑(Finset.range (q.toNat - 1)) := by
      intro i hi j hj h
      simp only [Finset.coe_range, Set.mem_Iio] at hi hj
      rw [EXP_spec hq ha0, EXP_spec hq ha0] at h
      exact gen_inj hq hg hi hj h
    have A2 : ((Finset.range (q.toNat - 1)).image (EXP q alpha)).card = q.toNat - 1 := by
      rw [Finset.card_image_of_injOn hinjE, Finset.card_range]
    have hinjL : Set.InjOn (fun b : Nat => LOGtab q alpha (b : Int))
        ↑(Finset.Ico 1 q.toNat) := by
      intro b1 h1 b2 h2 heq
      simp only [Finset.coe_Ico, Set.mem_Ico] at h1 h2
      simp only at heq
      have hc1 : (1 : Int) ≤ (b1 : Int) ∧ (b1 : Int) < q := by
        constructor <;> omega
      have hc2 : (1 : Int) ≤ (b2 : Int) ∧ (b2 : Int) < q := by
        constructor <;> omega
      have hb1 := EXP_LOG hq ha0 hg hc1.1 hc1.2
      have hb2 := EXP_LOG hq ha0 hg hc2.1 hc2.2
      have : (b1 : Int) = (b2 : Int) := by
        rw [← hb1.2, ← hb2.2, heq]
      omega
    have A3 : ((Finset.Ico 1 q.toNat).image fun b : Nat => LOGtab q alpha (b : Int)).card
        = q.toNat - 1 := by
      rw [Finset.card_image_of_injOn hinjL, Nat.card_Ico]
    unfold build_luts
    rw [if_pos ⟨A1, A2, A3⟩]
    rfl

theorem C4_witness : (build_luts 7 3).isSome = true ↔ isGenerator 7 3 :=
  C4_build_luts_iff 7 3 (by decide) (by decide) (by decide)

/-- C1: for a prime field whose lookup tables were built by `_build_luts`
from a generating primitive element, table-lookup multiplication
`EXP[LOG[a] + LOG[b]]` (with a `0` result whenever either operand is `0`)
agrees with calculate-mode multiplication `(a*b) mod order` for all operands
`a`, `b` in `[0, order)`: the two modes are drop-in equivalent. -/
theorem C1_lookup_equals_calculate (q alpha a b : Int) (hq : 1 < q)
    (ha1 : 1 ≤ alpha) (ha2 : alpha < q) (hg : isGenerator q alpha)
    (ha : 0 ≤ a ∧ a < q) (hb : 0 ≤ b ∧ b < q) :
    multiply_lookup q alpha a b = multiply_calculate q a b := by
  have ha0 : (0 : Int) ≤ alpha := by omega
  unfold multiply_lookup multiply_calculate
  by_cases hz : a = 0 ∨ b = 0
  · rw [if_pos hz]
    rcases hz with h | h
    · rw [h, zero_mul, Int.zero_emod]
    · rw [h, mul_zero, Int.zero_emod]
  · rw [if_neg hz]
    push_neg at hz
    have haL := EXP_LOG hq ha0 hg (show 1 ≤ a by omega) ha.2
    have hbL := EXP_LOG hq ha0 hg (show 1 ≤ b by omega) hb.2
    rw [EXPfull_spec hq ha0 hg, pow_add]
    calc alpha ^ LOGtab q alpha a * alpha ^ LOGtab q alpha b % q
        = alpha ^ LOGtab q alpha a % q * (alpha ^ LOGtab q alpha b % q) % q := by
          rw [← Int.mul_emod]
      _ = EXP q alpha (LOGtab q alpha a) * EXP q alpha (LOGtab q alpha b) % q := by
          rw [← EXP_spec hq ha0, ← EXP_spec hq ha0]
      _ = a * b % q := by rw [haL.2, hbL.2]

theorem C1_witness : multiply_lookup 7 3 4 5 = multiply_calculate 7 4 5 :=
  C1_lookup_equals_calculate 7 3 4 5 (by decide) (by decide) (by decide) (by decide)
    (by decide) (by decide)

/-- C6: in calculate mode the square-and-multiply power operation satisfies
`power_calculate(a, e) = a^e mod order` for every field element `a` in
`[0, order)` and exponent `e ≥ 0`; in particular `power(a, 0) = 1` for every
`a` including `a = 0`, and since every intermediate product passes through
the field multiply, the result lies in `[0, order)`. -/
theorem C6_power (q a : Int) (e : Nat) (hq : 1 < q) (ha : 0 ≤ a ∧ a < q) :
    power_calculate q a (e : Int) = a ^ e % q
    ∧ power_calculate q a 0 = 1
    ∧ 0 ≤ power_calculate q a (e : Int)
    ∧ power_calculate q a (e : Int) < q := by
  have h0 : power_calculate q a 0 = 1 := by
    unfold power_calculate
    rw [if_pos rfl]
  have hmain : power_calculate q a (e : Int) = a ^ e % q := by
    by_cases he : e = 0
    · subst he
      show power_calculate q a ((0 : Nat) : Int) = a ^ 0 % q
      rw [pow_zero, one_emod_eq_one hq]
      exact h0
    · have hne : (e : Int) ≠ 0 := Int.natCast_ne_zero.mpr he
      have hnneg : ¬(e : Int) < 0 := not_lt.mpr (Int.natCast_nonneg e)
      unfold power_calculate
      rw [if_neg hne, if_neg hnneg, Int.natAbs_ofNat]
      rw [powerLoop_spec e e a 1 (by omega) le_rfl, one_mul]
  refine ⟨hmain, h0, ?_, ?_⟩
  · rw [hmain]
    exact Int.emod_nonneg _ (by omega)
  · rw [hmain]
    exact Int.emod_lt_of_pos _ (by omega)

theorem C6_witness :
    power_calculate 7 3 ((5 : Nat) : Int) = 3 ^ 5 % 7
    ∧ power_calculate 7 3 0 = 1
    ∧ 0 ≤ power_calculate 7 3 ((5 : Nat) : Int)
    ∧ power_calculate 7 3 ((5 : Nat) : Int) < 7 :=
  C6_power 7 3 5 (by decide) (by decide)

/-- C8: in calculate mode, division produces exact multiplicative inverses
over a prime field: for every `a` in `[1, order)`,
`multiply(a, divide(1, a)) = 1`, where `divide` returns `0` when its first
operand is `0` and otherwise multiplies by the extended-Euclidean inverse of
its second operand modulo `order`. -/
theorem C8_divide_inverse (q a : Int) (hp : Nat.Prime q.toNat)
    (ha1 : 1 ≤ a) (ha2 : a < q) :
    multiply_calculate q a (divide_calculate q 1 a) = 1
    ∧ divide_calculate q 0 a = 0 := by
  have hq : 1 < q := by
    have := hp.two_le
    omega
  obtain ⟨hbez, hda, hdq, hg0⟩ :=
    egcdAux_spec (q.natAbs + 1) a q (by omega) (by omega) (by omega)
  have hp2 : Nat.Prime q.natAbs := by
    have hqq : q.natAbs = q.toNat := by omega
    rw [hqq]
    exact hp
  have hgq : (egcdAux (q.natAbs + 1) a q).1.natAbs ∣ q.natAbs :=
    Int.natAbs_dvd_natAbs.mpr hdq
  have hg1 : (egcdAux (q.natAbs + 1) a q).1 = 1 := by
    rcases hp2.eq_one_or_self_of_dvd _ hgq with h1 | h2
    · omega
    · exfalso
      have hle : (egcdAux (q.natAbs + 1) a q).1 ≤ a := Int.le_of_dvd (by omega) hda
      omega
  constructor
  · have hne : ¬((1 : Int) = 0 ∨ a = 0) := by
      push_neg
      exact ⟨one_ne_zero, by omega⟩
    unfold divide_calculate
    rw [if_neg hne]
    unfold multiply_calculate multiplicative_inverse_calculate extended_euclidean_algorithm
    simp only []
    rw [one_mul, int_emod_emod, mul_emod_right_lift]
    have hmod : (a * (egcdAux (q.natAbs + 1) a q).2.1
        + q * (egcdAux (q.natAbs + 1) a q).2.2) % q
        = a * (egcdAux (q.natAbs + 1) a q).2.1 % q := Int.add_mul_emod_self_left _ _ _
    rw [hbez, hg1] at hmod
    rw [← hmod]
    exact one_emod_eq_one hq
  · unfold divide_calculate
    rw [if_pos (Or.inl rfl)]

theorem C8_witness :
    multiply_calculate 7 3 (divide_calculate 7 1 3) = 1
    ∧ divide_calculate 7 0 3 = 0 :=
  C8_divide_inverse 7 3 (by decide) (by decide) (by decide)

/-- C7: for every nonzero field element `beta` in `[1, order)` of a prime
field whose primitive element generates the multiplicative group, the linear
search `log_calculate(beta)` returns the unique `g` in `[0, order-1)` with
`alpha^g ≡ beta (mod order)`, found as the first match of the search that
starts from `1` and repeatedly multiplies by `alpha`. -/
theorem C7_discrete_log (q alpha beta : Int) (j : Nat) (hq : 1 < q)
    (ha1 : 1 ≤ alpha) (ha2 : alpha < q) (hg : isGenerator q alpha)
    (hb : 1 ≤ beta ∧ beta < q) (hj : j < q.toNat - 1) :
    (log_calculate q alpha beta).toNat < q.toNat - 1
    ∧ alpha ^ (log_calculate q alpha beta).toNat % q = beta
    ∧ 0 ≤ log_calculate q alpha beta
    ∧ (alpha ^ j % q = beta → (j : Int) = log_calculate q alpha beta) := by
  have hex : ∃ i, i < q.toNat - 1 ∧ alpha ^ i % q = beta := gen_surj hq hg hb.1 hb.2
  have hfind := Nat.find_spec hex
  have hflt : Nat.find hex < q.toNat - 1 := hfind.1
  have key : logSearch q alpha beta (alpha ^ 0 % q) 0 ((q - 1).toNat) = Nat.find hex := by
    refine logSearch_found hq ((q - 1).toNat) 0 (Nat.find hex) (Nat.zero_le _) (by omega)
      hfind.2 ?_
    intro j2 _ hlt2 hmatch2
    exact Nat.find_min hex hlt2 ⟨by omega, hmatch2⟩
  rw [pow_zero, one_emod_eq_one hq] at key
  have hlog : log_calculate q alpha beta = (Nat.find hex : Int) := by
    unfold log_calculate
    rw [key]
  refine ⟨?_, ?_, ?_, ?_⟩
  · rw [hlog, Int.toNat_natCast]
    exact hflt
  · rw [hlog, Int.toNat_natCast]
    exact hfind.2
  · rw [hlog]
    exact Int.natCast_nonneg _
  · intro hmatch
    rw [hlog]
    have hje : j = Nat.find hex :=
      gen_inj hq hg hj hflt (by rw [hmatch, hfind.2])
    exact_mod_cast congrArg (Nat.cast : Nat → Int) hje

theorem C7_witness :
    (log_calculate 7 3 6).toNat < (7 : Int).toNat - 1
    ∧ (3 : Int) ^ (log_calculate 7 3 6).toNat % 7 = 6
    ∧ 0 ≤ log_calculate 7 3 6
    ∧ ((3 : Int) ^ (3 : Nat) % 7 = 6 → ((3 : Nat) : Int) = log_calculate 7 3 6) :=
  C7_discrete_log 7 3 6 3 (by decide) (by decide) (by decide) (by decide) (by decide)
    (by decide)

/-- C10 (implicit): `log_calculate` is total and signals no error when the
discrete logarithm does not exist — for `beta = 0`, and for any `beta` that
no power of `alpha` reaches, the linear search exhausts `[0, order-1)`
without matching and the function returns `order - 2`. -/
theorem C10_log_no_match (q alpha beta : Int) (hq : 1 < q)
    (ha1 : 1 ≤ alpha) (ha2 : alpha < q) (hg : isGenerator q alpha)
    (hb : beta = 0 ∨ ∀ j : Nat, j < q.toNat - 1 → alpha ^ j % q ≠ beta) :
    log_calculate q alpha beta = q - 2 := by
  have hnm : ∀ j : Nat, j < q.toNat - 1 → alpha ^ j % q ≠ beta := by
    rcases hb with rfl | h
    · intro j hj
      exact gen_pow_ne_zero hq hg (by omega)
    · exact h
  have key := logSearch_nomatch ((q - 1).toNat) 0 (by omega)
    (fun j _ hj2 => hnm j (by omega))
  rw [pow_zero, one_emod_eq_one hq] at key
  unfold log_calculate
  rw [key]
  omega

theorem C10_witness : log_calculate 7 3 0 = 7 - 2 :=
  C10_log_no_match 7 3 0 (by decide) (by decide) (by decide) (by decide)
    (Or.inl rfl)

/-- C9: `poly_eval` implements Horner's rule elementwise — the output is the
map, over the value array, of the fold
`result = c0; result = add(ck, multiply(result, x))`, which equals the value
of the polynomial `c0*x^n + ... + cn` reduced mod `order`; each output
element depends only on its own input element. -/
theorem C9_poly_eval (q : Int) (coeffs values : List Int) (xv : Int) (hq : 1 < q)
    (hc : coeffs ≠ []) (hcf : ∀ c ∈ coeffs, 0 ≤ c ∧ c < q) :
    poly_eval_calculate q coeffs values = values.map (fun x => polyValInt coeffs x % q)
    ∧ poly_eval_elem q coeffs xv = polyValInt coeffs xv % q := by
  have helem : ∀ x : Int, poly_eval_elem q coeffs x = polyValInt coeffs x % q := by
    intro x
    cases coeffs with
    | nil => exact absurd rfl hc
    | cons c0 rest =>
      show rest.foldl (fun r c => add_calculate q c (multiply_calculate q r x)) c0
          = (c0 :: rest).foldl (fun acc c => acc * x + c) 0 % q
      have hc0 := hcf c0 (List.mem_cons_self c0 rest)
      have hstep : (c0 :: rest).foldl (fun acc c => acc * x + c) 0
          = rest.foldl (fun acc c => acc * x + c) (0 * x + c0) := rfl
      have hzero : (0 : Int) * x + c0 = c0 := by ring
      rw [hstep, hzero]
      exact horner_fold hq rest c0 c0 hc0.1 hc0.2 rfl
  constructor
  · unfold poly_eval_calculate
    rw [funext helem]
  · exact helem xv

theorem C9_witness :
    poly_eval_calculate 31 [2, 5, 11] [7, 29]
      = List.map (fun x => polyValInt [2, 5, 11] x % 31) [7, 29]
    ∧ poly_eval_elem 31 [2, 5, 11] 7 = polyValInt [2, 5, 11] 7 % 31 :=
  C9_poly_eval 31 [2, 5, 11] [7, 29] 7 (by decide) (by decide) (by decide)
